import Mathlib

/-!
Verification of the recognition and flag-parsing engine of Bear's `citnames`
component (the `cs::semantic` namespace).  The repository snapshot contains the
declaration of `ToolCrayFtnfe` (`recognize`, `is_compiler_call`,
`FLAG_DEFINITION`) in `src/source/citnames/source/semantic/ToolCrayFtnfe.h`;
the implementations (the argument-parser combinators of `Parsers.h`, the flag
tables, and the tool-chain dispatcher) are not part of the snapshot, so the
executable model below is written from the specification's description of
those components, as noted on each definition.
-/

set_option autoImplicit false
set_option linter.dupNamespace false

deriving instance DecidableEq for Except

namespace CS.Semantic

/-- Modelled from the spec: an `Execution` is an immutable snapshot of one
process invocation: program path, argument vector (here: the arguments handed
to the Argument Parser, i.e. excluding `argv[0]`, as in the spec's concrete
scenarios), working directory, and environment mapping. -/
structure Execution where
  program : String
  arguments : List String
  working_directory : String
  environment : List (String × String)
  deriving DecidableEq, Repr

/-- Modelled from the spec: a flag rule's match mode is `exact` spelling,
`prefix` (separate operands follow), or `prefix-with-glued-value` (the rest of
the token is the operand). -/
inductive MatchMode where
  | exactMatch
  | prefixMatch
  | gluedMatch
  deriving DecidableEq, Repr

/-- Modelled from the spec: the closed set of classification tags a flag rule
can carry.  `kept`, `compileOnly`, `linkOnly` and `bothCompileLink` flags are
preserved verbatim in the output flag list; `consumedNoOp` flags are
recognized but dropped; the marker categories drive variant selection
(`compileMarker` is the `-c`-equivalent compile-only marker,
`preprocessMarker` the preprocess-only marker, `queryMarker` the query-only
marker) and the file markers bind input/output file operands. -/
inductive Category where
  | kept
  | consumedNoOp
  | inputFileMarker
  | outputFileMarker
  | compileOnly
  | linkOnly
  | bothCompileLink
  | queryMarker
  | compileMarker
  | preprocessMarker
  deriving DecidableEq, Repr

/-- Modelled from the spec: one entry of a Flag Grammar Table: spelling,
match mode, arity (number of separate operand tokens; ignored for glued
rules, which always take the rest of the token), and category. -/
structure FlagRule where
  spelling : String
  match_mode : MatchMode
  arity : Nat
  category : Category
  deriving DecidableEq, Repr

/-- The source's `FlagsByName` table type (declared in `ToolCrayFtnfe.h`):
a Flag Grammar Table, kept in declaration order. -/
abbrev FlagsByName : Type := List FlagRule

/-- Does a rule match a token?  Exact rules match the exact spelling; both
kinds of prefix rule match when the spelling is a prefix of the token. -/
def matchesTok (r : FlagRule) (tok : String) : Bool :=
  match r.match_mode with
  | .exactMatch => r.spelling == tok
  | .prefixMatch => r.spelling.data.isPrefixOf tok.data
  | .gluedMatch => r.spelling.data.isPrefixOf tok.data

/-- Specificity rank of a rule, encoding the spec's precedence: an exact match
(whose spelling necessarily equals the whole token) outranks every prefix
match of the same token, and among prefix matches a longer spelling outranks
a shorter one.  Two exact matches for the same token tie. -/
def rank (r : FlagRule) : Nat :=
  2 * r.spelling.data.length + (match r.match_mode with | .exactMatch => 1 | _ => 0)

/-- Strictly more specific, per `rank`. -/
def moreSpecific (a b : FlagRule) : Bool :=
  rank b < rank a

/-- Worker for `lookup`: scan the table in declaration order, keeping the
current best candidate and replacing it only by a strictly more specific
match (so ties are broken by declaration order). -/
def lookupGo (tok : String) : List FlagRule → Option FlagRule → Option FlagRule
  | [], best => best
  | r :: rs, best =>
    if matchesTok r tok then
      match best with
      | none => lookupGo tok rs (some r)
      | some b => if moreSpecific r b then lookupGo tok rs (some r) else lookupGo tok rs (some b)
    else
      lookupGo tok rs best

/-- Modelled from the spec: Flag Grammar Table lookup, most specific match
first: exact spelling beats prefix match, among prefix matches the longest
matching spelling wins, ties broken by declaration order. -/
def lookup (table : FlagsByName) (tok : String) : Option FlagRule :=
  lookupGo tok table none

/-- Modelled from the spec: result of parsing one token: a recognized flag
(rule plus consumed operand strings), an unrecognized option-looking token
kept as an unknown flag, or a positional token. -/
inductive MatchedArgument where
  | flag (rule : FlagRule) (operands : List String)
  | unknownFlag (tok : String)
  | positional (tok : String)
  deriving DecidableEq, Repr

/-- Number of input tokens consumed by one matched argument: a glued flag or
any token-sized entry consumes one token; a separate-operand flag consumes
its own token plus its operands. -/
def consumedCount : MatchedArgument → Nat
  | .flag r ops =>
    match r.match_mode with
    | .gluedMatch => 1
    | .exactMatch => 1 + ops.length
    | .prefixMatch => 1 + ops.length
  | .unknownFlag _ => 1
  | .positional _ => 1

/-- Total number of input tokens consumed by a match sequence. -/
def consumedTotal (ms : List MatchedArgument) : Nat :=
  (ms.map consumedCount).sum

/-- Modelled from the spec: the Argument Parser's failure: a flag rule
declared arity N but fewer than N tokens remained. -/
inductive ParseError where
  | truncatedFlag
  deriving DecidableEq, Repr

/-- Modelled from the spec: the family's option-prefix convention — a token
looks like an option when it begins with the leading marker character. -/
def optionLike (tok : String) : Bool :=
  match tok.data with
  | '-' :: _ => true
  | _ => false

/-- The glued operand of a token matched by a glued rule: the remainder of
the token after the rule's spelling. -/
def gluedOperand (r : FlagRule) (tok : String) : String :=
  ⟨tok.data.drop r.spelling.data.length⟩

/-- Modelled from the spec: the Argument Parser's left-to-right single-pass
scan, written with explicit fuel (`parseArgs` supplies the input length, which
always suffices) so that the recursion is structural.  Per token: look it up;
a matched separate-operand rule consumes the next `arity` tokens (failing with
`truncatedFlag` when fewer remain), a matched glued rule splits the token,
an unmatched option-looking token becomes an unknown-flag entry, and any other
token is positional. -/
def parseFuel (table : FlagsByName) : Nat → List String → Except ParseError (List MatchedArgument)
  | _, [] => .ok []
  | 0, _ :: _ => .error .truncatedFlag
  | fuel + 1, tok :: rest =>
    match lookup table tok with
    | some r =>
      match r.match_mode with
      | .gluedMatch =>
        (parseFuel table fuel rest).map (fun ms => .flag r [gluedOperand r tok] :: ms)
      | .exactMatch =>
        if rest.length < r.arity then .error .truncatedFlag
        else (parseFuel table fuel (rest.drop r.arity)).map
          (fun ms => .flag r (rest.take r.arity) :: ms)
      | .prefixMatch =>
        if rest.length < r.arity then .error .truncatedFlag
        else (parseFuel table fuel (rest.drop r.arity)).map
          (fun ms => .flag r (rest.take r.arity) :: ms)
    | none =>
      if optionLike tok then
        (parseFuel table fuel rest).map (fun ms => .unknownFlag tok :: ms)
      else
        (parseFuel table fuel rest).map (fun ms => .positional tok :: ms)

/-- Modelled from the spec: the Argument Parser: scan the token list once,
left to right, against a Flag Grammar Table. -/
def parseArgs (table : FlagsByName) (args : List String) : Except ParseError (List MatchedArgument) :=
  parseFuel table args.length args

/-- Modelled from the spec: the tagged result of recognition.  `compile`
carries the input source files, the optional output file and the kept flags;
`preprocess` the subset without object output; `link` the inputs, output and
flags; `queryOnly` a no-build-effect call; `unknown` an unclassifiable call
of a recognized family. -/
inductive Semantic where
  | compile (sources : List String) (output : Option String) (flags : List String)
  | preprocess (sources : List String) (flags : List String)
  | link (inputs : List String) (output : Option String) (flags : List String)
  | queryOnly
  | unknown
  deriving DecidableEq, Repr

/-- Modelled from the spec: the error taxonomy of a Tool's `recognize`:
`notApplicable` (the program is not of this Tool's family, recovered by the
Tool Chain) and `malformedInvocation` (the Argument Parser failed, or required
fields for the chosen variant are missing). -/
inductive RecognitionError where
  | notApplicable
  | malformedInvocation
  deriving DecidableEq, Repr

/-- Categories whose flags are preserved verbatim in the output flag list. -/
def isKeptCategory : Category → Bool
  | .kept | .compileOnly | .linkOnly | .bothCompileLink => true
  | _ => false

/-- Render one matched argument into the kept output flags: a kept
separate-operand flag contributes its spelling followed by its operands, a
kept glued flag contributes the original token, an unknown option-looking
token is passed through, and everything else contributes nothing. -/
def renderKept : MatchedArgument → List String
  | .flag r ops =>
    if isKeptCategory r.category then
      match r.match_mode with
      | .gluedMatch => [r.spelling ++ ops.headD ""]
      | _ => r.spelling :: ops
    else []
  | .unknownFlag tok => [tok]
  | .positional _ => []

/-- The kept flags of a match sequence, in order. -/
def keptFlags : List MatchedArgument → List String
  | [] => []
  | m :: ms => renderKept m ++ keptFlags ms

/-- Modelled from the spec: the input source files of a match sequence:
positional tokens, plus the operands of `inputFileMarker` flags. -/
def sourcesOf : List MatchedArgument → List String
  | [] => []
  | .positional tok :: ms => tok :: sourcesOf ms
  | .flag r ops :: ms =>
    (if r.category == .inputFileMarker then ops else []) ++ sourcesOf ms
  | .unknownFlag _ :: ms => sourcesOf ms

/-- Modelled from the spec: the output file of a match sequence: the operand
of the last `outputFileMarker` flag (last write wins). -/
def outputOf : List MatchedArgument → Option String
  | [] => none
  | .flag r (op :: _) :: ms =>
    match outputOf ms with
    | some o => some o
    | none => if r.category == .outputFileMarker then some op else none
  | _ :: ms => outputOf ms

/-- Does the match sequence contain a recognized flag of the given category? -/
def hasCategory (c : Category) : List MatchedArgument → Bool
  | [] => false
  | .flag r _ :: ms => r.category == c || hasCategory c ms
  | _ :: ms => hasCategory c ms

/-- Modelled from the spec: classify a parsed match sequence into a Semantic
variant: a query-only marker with no input files gives `queryOnly`; a
`-c`-equivalent compile-only marker gives `compile` (failing with
`malformedInvocation` when no input file is present); a preprocess-only
marker gives `preprocess`; a link-only flag (without compile intent) gives
`link`; otherwise at least one input source file defaults to `compile`. -/
def classifyArgs (ms : List MatchedArgument) : Except RecognitionError Semantic :=
  let srcs := sourcesOf ms
  if hasCategory .queryMarker ms && srcs.isEmpty then .ok .queryOnly
  else if hasCategory .compileMarker ms then
    if srcs.isEmpty then .error .malformedInvocation
    else .ok (.compile srcs (outputOf ms) (keptFlags ms))
  else if hasCategory .preprocessMarker ms then
    if srcs.isEmpty then .error .malformedInvocation
    else .ok (.preprocess srcs (keptFlags ms))
  else if hasCategory .linkOnly ms then .ok (.link srcs (outputOf ms) (keptFlags ms))
  else if srcs.isEmpty then .ok .unknown
  else .ok (.compile srcs (outputOf ms) (keptFlags ms))

/-- The basename (last path component) of a program path. -/
def basename (p : String) : String :=
  ⟨((p.data.reverse.takeWhile (fun c => c ≠ '/')).reverse)⟩

/-- Modelled from the spec: a Tool (recognizer) is stateless: its immutable
state is the set of program basenames of its family and its Flag Grammar
Table. -/
structure Tool where
  basenames : List String
  flags : FlagsByName
  deriving DecidableEq, Repr

/-- Modelled from the spec: `is_compiler_call` (declared in `Tool.h` /
`ToolCrayFtnfe.h`) is a cheap, purely syntactic check: the program's basename
is matched against the family's known names; no filesystem access, nothing
executed. -/
def is_compiler_call (t : Tool) (program : String) : Bool :=
  t.basenames.contains (basename program)

/-- Modelled from the spec: a Tool's `recognize` (declared in
`ToolCrayFtnfe.h`): fail fast with `notApplicable` when `is_compiler_call`
rejects the program; otherwise run the Argument Parser on the argument vector
with the Tool's table (a parser failure surfaces as `malformedInvocation`)
and classify the matched flags. -/
def recognize (t : Tool) (e : Execution) : Except RecognitionError Semantic :=
  if is_compiler_call t e.program then
    match parseArgs t.flags e.arguments with
    | .error _ => .error .malformedInvocation
    | .ok ms => classifyArgs ms
  else .error .notApplicable

/-- Per-Execution batch processing: every Execution is recognized
independently. -/
def recognizeBatch (t : Tool) (es : List Execution) : List (Except RecognitionError Semantic) :=
  es.map (recognize t)

/-- Modelled from the spec: the Tool Chain's `classify`: iterate the Tools in
the fixed configured order and return the result of the first Tool whose
`is_compiler_call` accepts the program; `none` when no Tool claims it. -/
def classify (chain : List Tool) (e : Execution) : Option (Except RecognitionError Semantic) :=
  match chain with
  | [] => none
  | t :: ts => if is_compiler_call t e.program then some (recognize t e) else classify ts e

/-- Modelled from the spec: the Cray Fortran front-end's flag table
(`ToolCrayFtnfe::FLAG_DEFINITION`, declared in `ToolCrayFtnfe.h`; the
defining translation unit is not in the snapshot): `-c` is the compile-only
marker, `-o` the output-file marker, `-J` an arity-1 compile-only flag, and
`--version` a query-only marker. -/
def ToolCrayFtnfe.FLAG_DEFINITION : FlagsByName :=
  [ ⟨"-c", .exactMatch, 0, .compileMarker⟩,
    ⟨"-o", .exactMatch, 1, .outputFileMarker⟩,
    ⟨"-J", .exactMatch, 1, .compileOnly⟩,
    ⟨"--version", .exactMatch, 0, .queryMarker⟩ ]

/-- Modelled from the spec: the Cray Fortran recognizer (`ToolCrayFtnfe`):
its family's program basenames and its flag table. -/
def toolCrayFtnfe : Tool :=
  { basenames := ["ftn", "crayftn"], flags := ToolCrayFtnfe.FLAG_DEFINITION }

/-- Named rule of the GCC table: `-c`, the compile-only marker. -/
def gccDashC : FlagRule := ⟨"-c", .exactMatch, 0, .compileMarker⟩

/-- Modelled from the spec: a GCC-family recognizer with a minimal table
(`-c` compile marker, `-o` output marker, `-E` preprocess marker,
`--version` query marker, glued `-I` compile flag). -/
def toolGcc : Tool :=
  { basenames := ["gcc", "g++", "cc", "c++"],
    flags :=
      [ gccDashC,
        ⟨"-o", .exactMatch, 1, .outputFileMarker⟩,
        ⟨"-E", .exactMatch, 0, .preprocessMarker⟩,
        ⟨"--version", .exactMatch, 0, .queryMarker⟩,
        ⟨"-I", .gluedMatch, 0, .compileOnly⟩ ] }

/-- The spec's Cray scenario: `ftn -c mod.f90 -J build/`. -/
def crayExec : Execution :=
  { program := "/opt/cray/bin/ftn",
    arguments := ["-c", "mod.f90", "-J", "build/"],
    working_directory := "/build",
    environment := [] }

/-- The spec's malformed scenario: `gcc -c` with no input file. -/
def gccNoInputExec : Execution :=
  { program := "/usr/bin/gcc",
    arguments := ["-c"],
    working_directory := "/build",
    environment := [] }

/-- The exact arity-0 `-I` rule of the precedence scenario. -/
def iExactRule : FlagRule := ⟨"-I", .exactMatch, 0, .kept⟩

/-- The glued-value `-I` rule of the precedence scenario. -/
def iGluedRule : FlagRule := ⟨"-I", .gluedMatch, 0, .compileOnly⟩

/-- A table holding both an exact arity-0 rule and a glued-value rule for
`-I`, in that declaration order. -/
def iTable : FlagsByName := [iExactRule, iGluedRule]

theorem consumedTotal_nil : consumedTotal [] = 0 := rfl

theorem consumedTotal_cons (m : MatchedArgument) (ms : List MatchedArgument) :
    consumedTotal (m :: ms) = consumedCount m + consumedTotal ms := by
  simp [consumedTotal]

theorem parseFuel_nil (table : FlagsByName) (fuel : Nat) :
    parseFuel table fuel [] = .ok [] := by
  cases fuel <;> rfl

/-- The fuel argument of `parseFuel` is irrelevant as long as it bounds the
input length. -/
theorem parseFuel_congr (table : FlagsByName) :
    ∀ (f g : Nat) (xs : List String), xs.length ≤ f → xs.length ≤ g →
      parseFuel table f xs = parseFuel table g xs := by
  intro f
  induction f with
  | zero =>
    intro g xs hf _
    have hx : xs = [] := List.eq_nil_of_length_eq_zero (Nat.le_zero.mp hf)
    subst hx
    rw [parseFuel_nil, parseFuel_nil]
  | succ f ih =>
    intro g xs hf hg
    cases xs with
    | nil => rw [parseFuel_nil, parseFuel_nil]
    | cons tok rest =>
      cases g with
      | zero => simp at hg
      | succ g' =>
        have hrf : rest.length ≤ f := by simp only [List.length_cons] at hf; omega
        have hrg : rest.length ≤ g' := by simp only [List.length_cons] at hg; omega
        have hdf : ∀ n, (rest.drop n).length ≤ f := fun n => by
          simp only [List.length_drop]; omega
        have hdg : ∀ n, (rest.drop n).length ≤ g' := fun n => by
          simp only [List.length_drop]; omega
        simp only [parseFuel]
        split
        · split
          · rw [ih g' rest hrf hrg]
          · split
            · rfl
            · rw [ih g' _ (hdf _) (hdg _)]
          · split
            · rfl
            · rw [ih g' _ (hdf _) (hdg _)]
        · split
          · rw [ih g' rest hrf hrg]
          · rw [ih g' rest hrf hrg]

theorem parseArgs_nil (table : FlagsByName) : parseArgs table [] = .ok [] := rfl

/-- One parsing step for a token matched by a glued rule. -/
theorem parseArgs_cons_glued (table : FlagsByName) (tok : String) (rest : List String)
    (r : FlagRule) (hl : lookup table tok = some r) (hm : r.match_mode = .gluedMatch) :
    parseArgs table (tok :: rest)
      = (parseArgs table rest).map (fun ms => .flag r [gluedOperand r tok] :: ms) := by
  show parseFuel table (tok :: rest).length (tok :: rest) = _
  simp only [List.length_cons, parseFuel, hl, hm]
  rfl

/-- One parsing step for a token matched by a separate-operand rule. -/
theorem parseArgs_cons_sep (table : FlagsByName) (tok : String) (rest : List String)
    (r : FlagRule) (hl : lookup table tok = some r) (hm : r.match_mode ≠ .gluedMatch) :
    parseArgs table (tok :: rest)
      = if rest.length < r.arity then .error .truncatedFlag
        else (parseArgs table (rest.drop r.arity)).map
          (fun ms => .flag r (rest.take r.arity) :: ms) := by
  cases hmm : r.match_mode
  case gluedMatch => exact absurd hmm hm
  all_goals
    show parseFuel table (tok :: rest).length (tok :: rest) = _
    simp only [List.length_cons, parseFuel, hl, hmm]
    by_cases hc : rest.length < r.arity
    · simp only [if_pos hc]
    · simp only [if_neg hc]
      rw [parseFuel_congr table rest.length (rest.drop r.arity).length (rest.drop r.arity)
        (by simp only [List.length_drop]; omega) le_rfl]
      rfl

/-- One parsing step for an unmatched option-looking token. -/
theorem parseArgs_cons_unknown (table : FlagsByName) (tok : String) (rest : List String)
    (hl : lookup table tok = none) (ho : optionLike tok = true) :
    parseArgs table (tok :: rest)
      = (parseArgs table rest).map (fun ms => .unknownFlag tok :: ms) := by
  show parseFuel table (tok :: rest).length (tok :: rest) = _
  simp only [List.length_cons, parseFuel, hl, ho, if_true]
  rfl

/-- One parsing step for an unmatched positional token. -/
theorem parseArgs_cons_positional (table : FlagsByName) (tok : String) (rest : List String)
    (hl : lookup table tok = none) (ho : optionLike tok = false) :
    parseArgs table (tok :: rest)
      = (parseArgs table rest).map (fun ms => .positional tok :: ms) := by
  show parseFuel table (tok :: rest).length (tok :: rest) = _
  simp only [List.length_cons, parseFuel, hl, ho, if_false]
  rfl

/-- Totality of the fuelled scan: with enough fuel it either returns a match
sequence that consumes exactly the input, or fails with `truncatedFlag`. -/
theorem parseFuel_totality (table : FlagsByName) :
    ∀ (fuel : Nat) (args : List String), args.length ≤ fuel →
      (∃ ms, parseFuel table fuel args = .ok ms ∧ consumedTotal ms = args.length)
      ∨ parseFuel table fuel args = .error .truncatedFlag := by
  intro fuel
  induction fuel with
  | zero =>
    intro args h
    have hx : args = [] := List.eq_nil_of_length_eq_zero (Nat.le_zero.mp h)
    subst hx
    exact Or.inl ⟨[], by rw [parseFuel_nil], rfl⟩
  | succ f ih =>
    intro args h
    cases args with
    | nil => exact Or.inl ⟨[], by rw [parseFuel_nil], rfl⟩
    | cons tok rest =>
      have hr : rest.length ≤ f := by simp only [List.length_cons] at h; omega
      cases hl : lookup table tok with
      | none =>
        simp only [parseFuel, hl]
        cases ho : optionLike tok with
        | true =>
          rw [if_pos rfl]
          rcases ih rest hr with ⟨ms, hms, hc⟩ | herr
          · refine Or.inl ⟨.unknownFlag tok :: ms, by rw [hms]; rfl, ?_⟩
            simp only [consumedTotal_cons, consumedCount, List.length_cons]
            omega
          · exact Or.inr (by rw [herr]; rfl)
        | false =>
          rw [if_neg Bool.false_ne_true]
          rcases ih rest hr with ⟨ms, hms, hc⟩ | herr
          · refine Or.inl ⟨.positional tok :: ms, by rw [hms]; rfl, ?_⟩
            simp only [consumedTotal_cons, consumedCount, List.length_cons]
            omega
          · exact Or.inr (by rw [herr]; rfl)
      | some r =>
        cases hmm : r.match_mode
        case gluedMatch =>
          simp only [parseFuel, hl, hmm]
          rcases ih rest hr with ⟨ms, hms, hc⟩ | herr
          · refine Or.inl ⟨.flag r [gluedOperand r tok] :: ms, by rw [hms]; rfl, ?_⟩
            simp only [consumedTotal_cons, consumedCount, hmm, List.length_cons]
            omega
          · exact Or.inr (by rw [herr]; rfl)
        all_goals
          simp only [parseFuel, hl, hmm]
          by_cases hc : rest.length < r.arity
          · exact Or.inr (by rw [if_pos hc])
          · rw [if_neg hc]
            have hd : (rest.drop r.arity).length ≤ f := by
              simp only [List.length_drop]; omega
            rcases ih (rest.drop r.arity) hd with ⟨ms, hms, hcc⟩ | herr
            · refine Or.inl ⟨.flag r (rest.take r.arity) :: ms, by rw [hms]; rfl, ?_⟩
              rw [List.length_drop] at hcc
              have ht : (rest.take r.arity).length = r.arity := by
                rw [List.length_take]; omega
              simp only [consumedTotal_cons, consumedCount, hmm, ht, List.length_cons]
              omega
            · exact Or.inr (by rw [herr]; rfl)

/-- C1: for every argument vector and every Flag Grammar Table, the Argument
Parser either returns a match sequence whose total consumed-token count
equals the length of the input vector, or fails with its truncated-flag
error; it never returns a result that silently drops trailing tokens. -/
theorem parser_totality (table : FlagsByName) (args : List String) :
    (∃ ms, parseArgs table args = .ok ms ∧ consumedTotal ms = args.length)
    ∨ parseArgs table args = .error .truncatedFlag :=
  parseFuel_totality table args.length args le_rfl

theorem moreSpecific_true {a b : FlagRule} : moreSpecific a b = true ↔ rank b < rank a := by
  simp [moreSpecific]

/-- Characterization of the table scan: when `lookupGo` returns a rule, either
it is the initial candidate and nothing in the scanned suffix outranks it, or
the rule sits in the suffix, strictly outranking every match before it (so
ties go to the earlier declaration), with no later match outranking it and
strictly outranking the initial candidate. -/
theorem lookupGo_spec (tok : String) :
    ∀ (rs : List FlagRule) (best : Option FlagRule) (r : FlagRule),
      lookupGo tok rs best = some r →
      (best = some r ∧ ∀ x ∈ rs, matchesTok x tok = true → rank x ≤ rank r)
      ∨ (matchesTok r tok = true ∧
         ∃ pre post, rs = pre ++ r :: post
           ∧ (∀ x ∈ pre, matchesTok x tok = true → rank x < rank r)
           ∧ (∀ x ∈ post, matchesTok x tok = true → rank x ≤ rank r)
           ∧ (∀ b, best = some b → rank b < rank r)) := by
  intro rs
  induction rs with
  | nil =>
    intro best r h
    exact Or.inl ⟨h, by simp⟩
  | cons x rs ih =>
    intro best r h
    simp only [lookupGo] at h
    by_cases hmx : matchesTok x tok = true
    · rw [if_pos hmx] at h
      cases best with
      | none =>
        rcases ih (some x) r h with ⟨hb, hall⟩ | ⟨hmr, pre, post, hsplit, hpre, hpost, hbest⟩
        · have hxr : x = r := Option.some.inj hb
          subst hxr
          exact Or.inr ⟨hmx, [], rs, rfl, by simp, hall, fun b hb' => Option.noConfusion hb'⟩
        · refine Or.inr ⟨hmr, x :: pre, post, by rw [hsplit, List.cons_append], ?_, hpost,
            fun b hb' => Option.noConfusion hb'⟩
          intro y hy hmy
          rcases List.mem_cons.mp hy with rfl | hy'
          · exact hbest y rfl
          · exact hpre y hy' hmy
      | some b =>
        have h' : (if moreSpecific x b = true then lookupGo tok rs (some x)
            else lookupGo tok rs (some b)) = some r := h
        by_cases hcomp : moreSpecific x b = true
        · rw [if_pos hcomp] at h'
          have hbx : rank b < rank x := moreSpecific_true.mp hcomp
          rcases ih (some x) r h' with ⟨hb, hall⟩ | ⟨hmr, pre, post, hsplit, hpre, hpost, hbest⟩
          · have hxr : x = r := Option.some.inj hb
            subst hxr
            refine Or.inr ⟨hmx, [], rs, rfl, by simp, hall, ?_⟩
            intro b' hb'
            have : b' = b := (Option.some.inj hb').symm
            subst this
            exact hbx
          · refine Or.inr ⟨hmr, x :: pre, post, by rw [hsplit, List.cons_append], ?_, hpost, ?_⟩
            · intro y hy hmy
              rcases List.mem_cons.mp hy with rfl | hy'
              · exact hbest y rfl
              · exact hpre y hy' hmy
            · intro b' hb'
              have : b' = b := (Option.some.inj hb').symm
              subst this
              exact lt_trans hbx (hbest x rfl)
        · rw [if_neg hcomp] at h'
          have hxb : rank x ≤ rank b := by
            rcases Nat.lt_or_ge (rank b) (rank x) with hlt | hge
            · exact absurd (moreSpecific_true.mpr hlt) hcomp
            · exact hge
          rcases ih (some b) r h' with ⟨hb, hall⟩ | ⟨hmr, pre, post, hsplit, hpre, hpost, hbest⟩
          · have hbr : b = r := Option.some.inj hb
            subst hbr
            refine Or.inl ⟨rfl, ?_⟩
            intro y hy hmy
            rcases List.mem_cons.mp hy with rfl | hy'
            · exact hxb
            · exact hall y hy' hmy
          · refine Or.inr ⟨hmr, x :: pre, post, by rw [hsplit, List.cons_append], ?_, hpost, hbest⟩
            intro y hy hmy
            rcases List.mem_cons.mp hy with rfl | hy'
            · exact lt_of_le_of_lt hxb (hbest b rfl)
            · exact hpre y hy' hmy
    · rw [if_neg hmx] at h
      rcases ih best r h with ⟨hb, hall⟩ | ⟨hmr, pre, post, hsplit, hpre, hpost, hbest⟩
      · refine Or.inl ⟨hb, ?_⟩
        intro y hy hmy
        rcases List.mem_cons.mp hy with rfl | hy'
        · exact absurd hmy hmx
        · exact hall y hy' hmy
      · refine Or.inr ⟨hmr, x :: pre, post, by rw [hsplit, List.cons_append], ?_, hpost, hbest⟩
        intro y hy hmy
        rcases List.mem_cons.mp hy with rfl | hy'
        · exact absurd hmy hmx
        · exact hpre y hy' hmy

/-- C3: Flag Grammar Table lookup returns the most specific matching rule:
the result matches the token and no other matching rule in the table has a
higher specificity rank (exact spelling outranks any prefix match and a
longer matching prefix outranks a shorter one, by definition of `rank`), and
every matching rule declared before the result is strictly outranked by it
(so rank ties are broken by declaration order); in particular, in a table
containing both an exact arity-0 rule for `-I` and a glued-value rule for
`-I`, the token `-Iinclude` matches the glued rule, with operand `include`,
not the exact rule. -/
theorem lookup_most_specific :
    (∀ (table : FlagsByName) (tok : String) (r : FlagRule),
        lookup table tok = some r →
          matchesTok r tok = true ∧ r ∈ table ∧
          (∀ x ∈ table, matchesTok x tok = true → rank x ≤ rank r) ∧
          ∃ pre post, table = pre ++ r :: post ∧
            ∀ x ∈ pre, matchesTok x tok = true → rank x < rank r)
    ∧ lookup iTable "-Iinclude" = some iGluedRule
    ∧ parseArgs iTable ["-Iinclude"] = .ok [.flag iGluedRule ["include"]] := by
  refine ⟨?_, by decide, by decide⟩
  intro table tok r h
  rcases lookupGo_spec tok table none r h with ⟨hb, _⟩ | ⟨hmr, pre, post, hsplit, hpre, hpost, _⟩
  · exact Option.noConfusion hb
  · subst hsplit
    refine ⟨hmr, by simp, ?_, pre, post, rfl, hpre⟩
    intro x hx hmx
    rcases List.mem_append.mp hx with hx' | hx'
    · exact le_of_lt (hpre x hx' hmx)
    · rcases List.mem_cons.mp hx' with rfl | hx''
      · exact le_rfl
      · exact hpost x hx'' hmx

/-- Witness for C3 at the `-Iinclude` scenario. -/
theorem lookup_most_specific_witness :
    matchesTok iGluedRule "-Iinclude" = true ∧ iGluedRule ∈ iTable :=
  ⟨(lookup_most_specific.1 iTable "-Iinclude" iGluedRule (by decide)).1,
   (lookup_most_specific.1 iTable "-Iinclude" iGluedRule (by decide)).2.1⟩

/-- C2: for the Execution with program `/opt/cray/bin/ftn` and arguments
`-c mod.f90 -J build/`, the Cray Fortran recognizer (whose flag table maps
`-J` to an arity-1 compile-only rule) returns Compile with source file
`mod.f90` and kept flags `-J build/`. -/
theorem crayFtnfe_compile_scenario :
    recognize toolCrayFtnfe crayExec
      = .ok (.compile ["mod.f90"] none ["-J", "build/"]) := by
  decide

/-- C4: recognition is deterministic: for any Tool Chain configuration,
classifying the same Execution twice yields identical results (the model is a
pure function of the chain and the Execution value, so equal inputs give
equal outputs). -/
theorem classify_deterministic (chain : List Tool) (e₁ e₂ : Execution) (h : e₁ = e₂) :
    classify chain e₁ = classify chain e₂ := by
  rw [h]

/-- Witness for C4 on the Cray scenario Execution. -/
theorem classify_deterministic_witness :
    classify [toolCrayFtnfe, toolGcc] crayExec = classify [toolCrayFtnfe, toolGcc] crayExec :=
  classify_deterministic [toolCrayFtnfe, toolGcc] crayExec crayExec rfl

/-- C5: the Tool Chain's classify returns the result of the first Tool whose
`is_compiler_call` is true, short-circuiting (the tail of the chain is
universally quantified, so later Tools are never consulted); a non-claiming
head is skipped; and when no Tool claims the program the result is `none`,
an outcome distinct by type from any Tool's internal result. -/
theorem classify_first_claimant :
    (∀ (t : Tool) (ts : List Tool) (e : Execution),
        is_compiler_call t e.program = true → classify (t :: ts) e = some (recognize t e))
    ∧ (∀ (t : Tool) (ts : List Tool) (e : Execution),
        is_compiler_call t e.program = false → classify (t :: ts) e = classify ts e)
    ∧ (∀ (chain : List Tool) (e : Execution),
        (∀ t ∈ chain, is_compiler_call t e.program = false) → classify chain e = none) := by
  refine ⟨?_, ?_, ?_⟩
  · intro t ts e h
    simp only [classify, h, if_true]
  · intro t ts e h
    simp only [classify, h]
    rw [if_neg Bool.false_ne_true]
  · intro chain e h
    induction chain with
    | nil => rfl
    | cons t ts ih =>
      simp only [classify, h t (List.mem_cons_self t ts)]
      rw [if_neg Bool.false_ne_true]
      exact ih fun x hx => h x (List.mem_cons_of_mem t hx)

/-- Witness for C5: the Cray tool heads a two-tool chain and claims `ftn`. -/
theorem classify_first_claimant_witness :
    classify [toolCrayFtnfe, toolGcc] crayExec = some (recognize toolCrayFtnfe crayExec) :=
  classify_first_claimant.1 toolCrayFtnfe [toolGcc] crayExec (by decide)

/-- C6: a token that matches no rule of the table but begins with the
option-prefix character is parsed as an unknown-flag entry (kept verbatim in
the output flags); it is never dropped from the output. -/
theorem unknown_flag_passthrough (table : FlagsByName) (tok : String) (rest : List String)
    (hl : lookup table tok = none) (ho : optionLike tok = true) :
    parseArgs table (tok :: rest)
      = (parseArgs table rest).map (fun ms => .unknownFlag tok :: ms)
    ∧ ∀ ms, parseArgs table (tok :: rest) = .ok ms →
        MatchedArgument.unknownFlag tok ∈ ms ∧ tok ∈ keptFlags ms := by
  have hstep := parseArgs_cons_unknown table tok rest hl ho
  refine ⟨hstep, ?_⟩
  intro ms hms
  rw [hstep] at hms
  cases hp : parseArgs table rest with
  | error err => rw [hp] at hms; simp [Except.map] at hms
  | ok tail =>
    rw [hp] at hms
    have hcons : MatchedArgument.unknownFlag tok :: tail = ms := Except.ok.inj hms
    subst hcons
    exact ⟨List.mem_cons_self _ _, by simp [keptFlags, renderKept]⟩

/-- Witness for C6 at the spec's `-weird-flag` scenario. -/
theorem unknown_flag_passthrough_witness :
    MatchedArgument.unknownFlag "-weird-flag" ∈ [MatchedArgument.unknownFlag "-weird-flag"]
    ∧ "-weird-flag" ∈ keptFlags [MatchedArgument.unknownFlag "-weird-flag"] :=
  (unknown_flag_passthrough iTable "-weird-flag" [] (by decide) (by decide)).2
    [MatchedArgument.unknownFlag "-weird-flag"] (by decide)

/-- The arity-1 output-file rule used in the C7 witness. -/
def oRule : FlagRule := ⟨"-o", .exactMatch, 1, .outputFileMarker⟩

/-- A one-rule table for the C7 witness. -/
def oTable : FlagsByName := [oRule]

/-- C7: a separate-operand rule of arity N (N ≥ 1): when at least N tokens
follow the matching token, exactly the next N tokens are consumed as its
operands and the scan resumes after them; when fewer than N remain, the
parser fails with `truncatedFlag`; and batch recognition treats every
Execution independently, so such a failure affects only its own Execution. -/
theorem separate_operand_arity (table : FlagsByName) (tok : String) (rest : List String)
    (r : FlagRule) (hl : lookup table tok = some r) (hm : r.match_mode ≠ .gluedMatch)
    (_hn : 1 ≤ r.arity) :
    (r.arity ≤ rest.length →
      parseArgs table (tok :: rest)
        = (parseArgs table (rest.drop r.arity)).map
            (fun ms => .flag r (rest.take r.arity) :: ms))
    ∧ (rest.length < r.arity → parseArgs table (tok :: rest) = .error .truncatedFlag)
    ∧ ∀ (t : Tool) (pre post : List Execution) (e : Execution),
        recognizeBatch t (pre ++ e :: post)
          = recognizeBatch t pre ++ recognize t e :: recognizeBatch t post := by
  have hstep := parseArgs_cons_sep table tok rest r hl hm
  refine ⟨?_, ?_, ?_⟩
  · intro hle
    rw [hstep, if_neg (by omega)]
  · intro hlt
    rw [hstep, if_pos hlt]
  · intro t pre post e
    simp [recognizeBatch]

/-- Witness for C7: `-o` (arity 1) with no following token is truncated. -/
theorem separate_operand_arity_witness :
    parseArgs oTable ["-o"] = .error .truncatedFlag :=
  (separate_operand_arity oTable "-o" [] oRule (by decide) (by decide) (by decide)).2.1
    (by decide)

/-- C8: when a Tool claims the program and parsing succeeds, but the chosen
variant would be Compile (a compile-only marker is present, no query-only
marker applies) with zero input source files, recognition fails with
`malformedInvocation`; in particular `gcc -c` (no input file) yields
`malformedInvocation`. -/
theorem compile_zero_inputs_malformed :
    (∀ (t : Tool) (e : Execution) (ms : List MatchedArgument),
        is_compiler_call t e.program = true →
        parseArgs t.flags e.arguments = .ok ms →
        hasCategory .queryMarker ms = false →
        hasCategory .compileMarker ms = true →
        sourcesOf ms = [] →
        recognize t e = .error .malformedInvocation)
    ∧ recognize toolGcc gccNoInputExec = .error .malformedInvocation := by
  refine ⟨?_, by decide⟩
  intro t e ms hic hp hq hcm hs
  simp only [recognize, hic, if_pos rfl]
  rw [hp]
  show classifyArgs ms = .error .malformedInvocation
  simp [classifyArgs, hs, hq, hcm]

/-- Witness for C8 at the `gcc -c` scenario. -/
theorem compile_zero_inputs_malformed_witness :
    recognize toolGcc gccNoInputExec = .error .malformedInvocation :=
  compile_zero_inputs_malformed.1 toolGcc gccNoInputExec [.flag gccDashC []]
    (by decide) (by decide) (by decide) (by decide) (by decide)

/-- A claimed program never produces `notApplicable`: `recognize` only takes
that branch when `is_compiler_call` is false. -/
theorem recognize_claimed_ne_notApplicable (t : Tool) (e : Execution)
    (h : is_compiler_call t e.program = true) :
    recognize t e ≠ .error .notApplicable := by
  simp only [recognize, h, if_pos rfl]
  cases hp : parseArgs t.flags e.arguments with
  | error err => simp
  | ok ms =>
    show classifyArgs ms ≠ .error .notApplicable
    simp only [classifyArgs]
    split_ifs <;> simp

/-- C9: for an Execution whose program fails the Cray recognizer's
`is_compiler_call` check, `recognize` fails fast with `notApplicable` for
every argument vector (so no argument is parsed and the outcome does not
depend on the arguments, the working directory or the environment;
`is_compiler_call` itself is a pure function of the program path alone); and
`notApplicable` is recovered by the Tool Chain: `classify` never surfaces
it. -/
theorem notApplicable_fail_fast :
    (∀ (p wd : String) (env : List (String × String)) (args : List String),
        is_compiler_call toolCrayFtnfe p = false →
        recognize toolCrayFtnfe ⟨p, args, wd, env⟩ = .error .notApplicable)
    ∧ ∀ (chain : List Tool) (e : Execution) (res : Except RecognitionError Semantic),
        classify chain e = some res → res ≠ .error .notApplicable := by
  constructor
  · intro p wd env args h
    simp [recognize, h]
  · intro chain e res h hres
    subst hres
    induction chain with
    | nil => exact Option.noConfusion h
    | cons t ts ih =>
      by_cases hc : is_compiler_call t e.program = true
      · simp only [classify, hc, if_pos rfl] at h
        exact recognize_claimed_ne_notApplicable t e hc (Option.some.inj h)
      · simp only [classify] at h
        rw [if_neg hc] at h
        exact ih h

/-- Witness for C9: `make` is not claimed by the Cray recognizer. -/
theorem notApplicable_fail_fast_witness :
    recognize toolCrayFtnfe ⟨"/usr/bin/make", ["-j4"], "/", []⟩ = .error .notApplicable :=
  notApplicable_fail_fast.1 "/usr/bin/make" "/" [] ["-j4"] (by decide)

/-- C10: the Cray recognizer's result depends only on the program path and
the argument vector: two Executions equal on those fields but with different
working directories and/or environments recognize identically. -/
theorem recognize_independent_of_context (e₁ e₂ : Execution)
    (h1 : e₁.program = e₂.program) (h2 : e₁.arguments = e₂.arguments) :
    recognize toolCrayFtnfe e₁ = recognize toolCrayFtnfe e₂ := by
  cases e₁ with
  | mk p1 a1 w1 v1 =>
    cases e₂ with
    | mk p2 a2 w2 v2 =>
      have hp : p1 = p2 := h1
      have ha : a1 = a2 := h2
      subst hp
      subst ha
      rfl

/-- Witness for C10: same program and arguments, different working directory
and environment. -/
theorem recognize_independent_of_context_witness :
    recognize toolCrayFtnfe
        ⟨"/opt/cray/bin/ftn", ["-c", "mod.f90", "-J", "build/"], "/a", []⟩
      = recognize toolCrayFtnfe
        ⟨"/opt/cray/bin/ftn", ["-c", "mod.f90", "-J", "build/"], "/b", [("HOME", "/root")]⟩ :=
  recognize_independent_of_context _ _ rfl rfl

end CS.Semantic
